import Mathlib

/-!
Shallow embedding of the diet-diary app's core pipeline (`app.py`):
keyword parsing of the recognition output, candidate lookup against the
food metadata table, selection & commit into the diet log, and the three
per-user summary queries.  Strings are modelled as `List Char`, SQL REAL
columns as `ℚ`, and the calendar date `DATE(created_at)` as `ℤ`.
-/

namespace DietApp

/-- Strings of the embedded program are lists of characters. -/
abbrev Str := List Char

/-- Whitespace as recognised by Python's `str.strip` (space, tab, newline,
carriage return, vertical tab, form feed). -/
def isPySpace (c : Char) : Bool :=
  c = ' ' || c = '\t' || c = '\n' || c = '\r' || c = '\x0b' || c = '\x0c'

/-- Drop leading whitespace (Python `str.lstrip`). -/
def lstrip (s : Str) : Str := s.dropWhile isPySpace

/-- Drop trailing whitespace (Python `str.rstrip`). -/
def rstrip (s : Str) : Str := (s.reverse.dropWhile isPySpace).reverse

/-- Python `str.strip`: drop whitespace at both ends. -/
def pyStrip (s : Str) : Str := rstrip (lstrip s)

/-- Replace every newline by a comma; models `.replace('\n', ',')` on
line 161 of `app.py`. -/
def replNl (s : Str) : Str := s.map (fun c => if c = '\n' then ',' else c)

/-- Split a character list at commas; models Python `str.split(',')`
(line 162 of `app.py`).  Splitting the empty string yields `[[]]`, as in
Python where `"".split(',') == ['']`. -/
def splitComma : Str → List Str
  | [] => [[]]
  | c :: cs =>
    if c = ',' then [] :: splitComma cs
    else (c :: (splitComma cs).headI) :: (splitComma cs).tail

/-- Trim each comma-separated piece and drop the empty ones; models the
list comprehension `[k.strip() for k in u.split(',') if k.strip()]` on
line 162 of `app.py` applied to a string `u`. -/
def pieces (u : Str) : List Str :=
  ((splitComma u).map pyStrip).filter (fun k => !k.isEmpty)

/-- Keyword Parser exactly as coded on lines 161–162 of `app.py`:
`raw_text = response.text.strip().replace('\n', ',')` followed by
`keywords = [k.strip() for k in raw_text.split(',') if k.strip()]`. -/
def codeKeywords (s : Str) : List Str := pieces (replNl (pyStrip s))

/-- Keyword Parser as the claim words it: first replace embedded line
breaks with commas, split on commas, trim each piece, drop empty pieces —
with no initial whole-string strip.  Used to compare against
`codeKeywords`. -/
def specKeywords (s : Str) : List Str := pieces (replNl s)

/-- Model of Python's `str.isalnum` on the characters this app meets:
ASCII letters and digits plus the Hangul blocks (Jamo `U+1100`–`U+11FF`,
compatibility Jamo `U+3131`–`U+318E`, syllables `U+AC00`–`U+D7A3`), which
Python classifies as alphanumeric. -/
def pyIsAlnum (c : Char) : Bool :=
  c.isAlphanum
    || (0x1100 ≤ c.toNat && c.toNat ≤ 0x11FF)
    || (0x3131 ≤ c.toNat && c.toNat ≤ 0x318E)
    || (0xAC00 ≤ c.toNat && c.toNat ≤ 0xD7A3)

/-- Sanitization of a keyword before lookup:
`clean_word = "".join(filter(str.isalnum, word))` (line 170 of `app.py`). -/
def cleanWord (w : Str) : Str := w.filter pyIsAlnum

/-- One row of the static `food_metadata` table. -/
structure FoodRow where
  food_name : Str
  calories : ℚ
  protein : ℚ
  fat : ℚ
  carbs : ℚ
deriving DecidableEq

/-- Test a predicate on every suffix of a string (including the string
itself and the empty suffix). -/
def anySuffix (f : Str → Bool) : Str → Bool
  | [] => f []
  | c :: cs => f (c :: cs) || anySuffix f cs

/-- SQL `LIKE` pattern matching: `%` matches any character sequence
(some suffix of the remaining text is matched by the rest of the
pattern), `_` matches any single character, every other pattern character
matches itself.  (The store's collation is modelled as case-sensitive,
exact character equality.) -/
def sqlLikeMatch : Str → Str → Bool
  | [], s => s.isEmpty
  | p :: ps, s =>
    if p = '%' then anySuffix (fun t => sqlLikeMatch ps t) s
    else if p = '_' then
      match s with
      | [] => false
      | _ :: cs => sqlLikeMatch ps cs
    else
      match s with
      | [] => false
      | c :: cs => decide (p = c) && sqlLikeMatch ps cs

/-- Per-keyword lookup, lines 170–172 of `app.py`: the query
`SELECT * FROM food_metadata WHERE food_name LIKE :word LIMIT 5` with the
bound parameter `%clean_word%`.  The pattern is passed as a parameter, so
it is the literal text `%` ++ sanitized keyword ++ `%` and nothing from
the keyword is interpreted as SQL. -/
def lookupKeyword (db : List FoodRow) (w : Str) : List FoodRow :=
  (db.filter (fun r => sqlLikeMatch ('%' :: (cleanWord w ++ ['%'])) r.food_name)).take 5

/-- Deduplication by food name keeping the first occurrence, with `seen`
the names already kept; models
`pd.concat(all_results).drop_duplicates(subset=['food_name'])`
(line 177 of `app.py`), whose default is to keep the first occurrence. -/
def dedupByName (seen : List Str) : List FoodRow → List FoodRow
  | [] => []
  | r :: rs =>
    if r.food_name ∈ seen then dedupByName seen rs
    else r :: dedupByName (r.food_name :: seen) rs

/-- Candidate Lookup, lines 166–179 of `app.py`: run the per-keyword query
for each keyword in order, concatenate the results (empty per-keyword
results are skipped by the code, which changes nothing in the
concatenation) and deduplicate by food name keeping the first occurrence.
When nothing matched, the result is the empty list (the code's empty
`DataFrame`). -/
def candidateLookup (db : List FoodRow) (ks : List Str) : List FoodRow :=
  dedupByName [] (ks.flatMap (lookupKeyword db))

/-- One row of the `diet_logs` table.  `created_at` is the calendar date
of the local insertion time, i.e. the value of `DATE(created_at)` used by
every query of the app. -/
structure DietLogEntry where
  user_id : Str
  food_name : Str
  calories : ℚ
  protein : ℚ
  fat : ℚ
  carbs : ℚ
  created_at : ℤ
deriving DecidableEq

/-- Round a rational to the nearest integer, ties to even — the rounding
Python's built-in `round` uses. -/
def roundHalfEven (q : ℚ) : ℤ :=
  if Int.fract q < 1 / 2 then ⌊q⌋
  else if 1 / 2 < Int.fract q then ⌊q⌋ + 1
  else if Even ⌊q⌋ then ⌊q⌋ else ⌊q⌋ + 1

/-- Python `round(x, 1)`: round to one decimal place. -/
def pyRound1 (q : ℚ) : ℚ := (roundHalfEven (q * 10) : ℚ) / 10

/-- The `INSERT INTO diet_logs ...` of lines 192–202 of `app.py`: append
one row with each numeric field rounded to one decimal place and
`created_at` defaulted to the current local date. -/
def insertLog (log : List DietLogEntry) (uid : Str) (today : ℤ) (r : FoodRow) :
    List DietLogEntry :=
  log ++ [{ user_id := uid, food_name := r.food_name,
            calories := pyRound1 r.calories, protein := pyRound1 r.protein,
            fat := pyRound1 r.fat, carbs := pyRound1 r.carbs,
            created_at := today }]

/-- Radio-button label of a candidate row
(`f"{row['food_name']} ({row['calories']}kcal)"`, line 186 of `app.py`),
modelled by the data that determines the rendered text: the name and the
calorie figure. -/
def foodOption (r : FoodRow) : Str × ℚ := (r.food_name, r.calories)

/-- Option labels of the whole candidate list (line 186 of `app.py`). -/
def foodOptions (result : List FoodRow) : List (Str × ℚ) := result.map foodOption

/-- Exceptions Python raises on the commit path. -/
inductive PyError where
  | valueError
  | indexError
deriving DecidableEq

/-- The commit click handler, lines 189–202 of `app.py`:
`food_options.index(selected_option)` raises `ValueError` when the
selected label is not in the list; `result_df.iloc[i]` raises
`IndexError` out of range; otherwise one row is inserted.  An `error`
result models the uncaught exception aborting the render cycle. -/
def commitClick (log : List DietLogEntry) (uid : Str) (today : ℤ)
    (result : List FoodRow) (selected : Str × ℚ) :
    Except PyError (List DietLogEntry) :=
  match (foodOptions result).findIdx? (fun o => o = selected) with
  | none => .error .valueError
  | some i =>
    match result[i]? with
    | none => .error .indexError
    | some r => .ok (insertLog log uid today r)

/-- Rows of the log belonging to one user
(`WHERE user_id = :uid`). -/
def userRows (log : List DietLogEntry) (uid : Str) : List DietLogEntry :=
  log.filter (fun e => e.user_id = uid)

/-- Rows of the log belonging to one user on one date
(`WHERE DATE(created_at) = DATE('now', 'localtime') AND user_id = :uid`). -/
def todayRows (log : List DietLogEntry) (uid : Str) (today : ℤ) :
    List DietLogEntry :=
  log.filter (fun e => e.user_id = uid ∧ e.created_at = today)

/-- Sum of the calorie column of a list of rows. -/
def sumCalories (rows : List DietLogEntry) : ℚ := (rows.map (·.calories)).sum

/-- The `summary_query` of lines 84–88 of `app.py`, calorie component:
`SELECT SUM(calories) ... WHERE DATE(created_at) = DATE('now','localtime')
AND user_id = :uid` (SQL's NULL sum over no rows is displayed as 0 by the
`or 0` on line 91, so the empty sum is 0). -/
def dailyCal (log : List DietLogEntry) (uid : Str) (today : ℤ) : ℚ :=
  sumCalories (todayRows log uid today)

/-- Protein component of the `summary_query` (lines 84–88 of `app.py`). -/
def dailyProt (log : List DietLogEntry) (uid : Str) (today : ℤ) : ℚ :=
  ((todayRows log uid today).map (·.protein)).sum

/-- The `ratio_query` of lines 113–117 of `app.py`:
`SELECT SUM(carbs), SUM(protein), SUM(fat) ... WHERE DATE(created_at) =
DATE('now','localtime') AND user_id = :uid`. -/
def ratioQuery (log : List DietLogEntry) (uid : Str) (today : ℤ) : ℚ × ℚ × ℚ :=
  (((todayRows log uid today).map (·.carbs)).sum,
   ((todayRows log uid today).map (·.protein)).sum,
   ((todayRows log uid today).map (·.fat)).sum)

/-- Distinct calendar dates present in one user's log, the groups of
`GROUP BY DATE(created_at)` in the `chart_query` (lines 99–103). -/
def distinctDates (log : List DietLogEntry) (uid : Str) : List ℤ :=
  ((userRows log uid).map (·.created_at)).dedup

/-- Total calories one user logged on one date, the aggregate
`SUM(calories)` of a `GROUP BY DATE(created_at)` group. -/
def daySum (log : List DietLogEntry) (uid : Str) (d : ℤ) : ℚ :=
  sumCalories ((userRows log uid).filter (fun e => e.created_at = d))

/-- The `chart_query` of lines 99–104 of `app.py`:
`SELECT DATE(created_at) as date, SUM(calories) as daily_cal FROM diet_logs
WHERE user_id = :uid GROUP BY DATE(created_at) ORDER BY date DESC LIMIT 7`.
One row per distinct date, newest first, capped at 7. -/
def chartQuery (log : List DietLogEntry) (uid : Str) : List (ℤ × ℚ) :=
  (((distinctDates log uid).insertionSort (· ≥ ·)).take 7).map
    (fun d => (d, daySum log uid d))

/-- The displayed chart data, line 106 of `app.py`:
`chart_df.sort_values('date')` re-sorts the queried rows ascending by
date. -/
def chartDisplay (log : List DietLogEntry) (uid : Str) : List (ℤ × ℚ) :=
  (chartQuery log uid).insertionSort (fun p q => p.1 ≤ q.1)

/-- Outcome of rendering the candidate stage. -/
inductive Outcome where
  | noResultsMessage
  | selectionShown
deriving DecidableEq

/-- The branch on `result_df` at lines 185–208 of `app.py`: an empty
candidate list shows the informational "no results" message, a non-empty
one shows the selection radio.  Neither branch touches the log (an insert
happens only inside the button handler, `commitClick`). -/
def renderStep (log : List DietLogEntry) (result : List FoodRow) :
    Outcome × List DietLogEntry :=
  if result.isEmpty then (.noResultsMessage, log) else (.selectionShown, log)

/-- Apply a function to the last element of a list, if any. -/
def mapLast (f : Str → Str) : List Str → List Str
  | [] => []
  | [a] => [f a]
  | a :: b :: l => a :: mapLast f (b :: l)

instance : IsTotal (ℤ × ℚ) (fun p q => p.1 ≤ q.1) :=
  ⟨fun a b => le_total a.1 b.1⟩

instance : IsTrans (ℤ × ℚ) (fun p q => p.1 ≤ q.1) :=
  ⟨fun _ _ _ hab hbc => le_trans hab hbc⟩

/-! ### Semantics of the parameterized `LIKE` lookup -/

theorem anySuffix_eq_true_iff (f : Str → Bool) (s : Str) :
    anySuffix f s = true ↔ ∃ t, t <:+ s ∧ f t = true := by
  induction s with
  | nil =>
    simp [anySuffix]
  | cons c cs ih =>
    simp only [anySuffix, Bool.or_eq_true, ih]
    constructor
    · rintro (h | ⟨t, ht, hf⟩)
      · exact ⟨c :: cs, List.suffix_refl _, h⟩
      · exact ⟨t, ht.trans (List.suffix_cons c cs), hf⟩
    · rintro ⟨t, ht, hf⟩
      rcases List.suffix_cons_iff.mp ht with h | h
      · exact Or.inl (h ▸ hf)
      · exact Or.inr ⟨t, h, hf⟩

theorem sqlLikeMatch_nil_pattern (s : Str) : sqlLikeMatch [] s = s.isEmpty := by
  simp [sqlLikeMatch]

theorem sqlLikeMatch_percent_cons (ps : Str) (s : Str) :
    sqlLikeMatch ('%' :: ps) s = anySuffix (fun t => sqlLikeMatch ps t) s := by
  simp [sqlLikeMatch]

theorem sqlLikeMatch_char_nil (a : Char) (ps : Str) (h1 : a ≠ '%') (h2 : a ≠ '_') :
    sqlLikeMatch (a :: ps) [] = false := by
  simp [sqlLikeMatch, h1, h2]

theorem sqlLikeMatch_char_cons (a : Char) (ps : Str) (c : Char) (cs : Str)
    (h1 : a ≠ '%') (h2 : a ≠ '_') :
    sqlLikeMatch (a :: ps) (c :: cs) = (decide (a = c) && sqlLikeMatch ps cs) := by
  simp [sqlLikeMatch, h1, h2]

theorem sqlLikeMatch_wildfree (x : Str) (hx : ∀ c ∈ x, c ≠ '%' ∧ c ≠ '_') :
    ∀ s : Str, sqlLikeMatch (x ++ ['%']) s = true ↔ x <+: s := by
  induction x with
  | nil =>
    intro s
    have h : sqlLikeMatch ['%'] s = true := by
      rw [sqlLikeMatch_percent_cons, anySuffix_eq_true_iff]
      exact ⟨[], List.nil_suffix, by rw [sqlLikeMatch_nil_pattern]; rfl⟩
    simp only [List.nil_append, h, true_iff]
    exact List.nil_prefix
  | cons a x' ih =>
    intro s
    obtain ⟨ha1, ha2⟩ := hx a (List.mem_cons_self a x')
    have ih' := ih (fun c hc => hx c (List.mem_cons_of_mem a hc))
    cases s with
    | nil =>
      rw [List.cons_append, sqlLikeMatch_char_nil a _ ha1 ha2]
      simp
    | cons c cs =>
      rw [List.cons_append, sqlLikeMatch_char_cons a _ c cs ha1 ha2]
      simp only [Bool.and_eq_true, decide_eq_true_eq, ih', List.cons_prefix_cons]

theorem sqlLikeMatch_infix (x : Str) (hx : ∀ c ∈ x, c ≠ '%' ∧ c ≠ '_') (s : Str) :
    sqlLikeMatch ('%' :: (x ++ ['%'])) s = true ↔ x <:+: s := by
  rw [sqlLikeMatch_percent_cons]
  simp only [anySuffix_eq_true_iff]
  constructor
  · rintro ⟨t, ht, hm⟩
    exact List.infix_iff_prefix_suffix.mpr ⟨t, (sqlLikeMatch_wildfree x hx t).mp hm, ht⟩
  · intro h
    obtain ⟨t, hp, hs⟩ := List.infix_iff_prefix_suffix.mp h
    exact ⟨t, hs, (sqlLikeMatch_wildfree x hx t).mpr hp⟩

theorem cleanWord_alnum (w : Str) : ∀ c ∈ cleanWord w, pyIsAlnum c = true := by
  intro c hc
  exact List.of_mem_filter hc

theorem cleanWord_wildcard_free (w : Str) : ∀ c ∈ cleanWord w, c ≠ '%' ∧ c ≠ '_' := by
  intro c hc
  have h := List.of_mem_filter hc
  constructor
  · rintro rfl; simp [pyIsAlnum] at h
  · rintro rfl; simp [pyIsAlnum] at h

theorem lookupKeyword_eq_filter_take (db : List FoodRow) (w : Str) :
    lookupKeyword db w =
      (db.filter (fun r => decide (cleanWord w <:+: r.food_name))).take 5 := by
  unfold lookupKeyword
  congr 1
  apply List.filter_congr
  intro r _
  have h := sqlLikeMatch_infix (cleanWord w) (cleanWord_wildcard_free w) r.food_name
  by_cases hm : cleanWord w <:+: r.food_name
  · simp [h.mpr hm, hm]
  · simp only [decide_eq_false hm]
    exact Bool.eq_false_iff.mpr (fun hc => hm (h.mp hc))

theorem lookupKeyword_length_le (db : List FoodRow) (w : Str) :
    (lookupKeyword db w).length ≤ 5 :=
  List.length_take_le 5 _

/-! ### Deduplication by food name -/

theorem dedupByName_not_seen (l : List FoodRow) :
    ∀ seen : List Str, ∀ r ∈ dedupByName seen l, r.food_name ∉ seen := by
  induction l with
  | nil =>
    intro seen r hr
    simp [dedupByName] at hr
  | cons x xs ih =>
    intro seen r hr
    by_cases hx : x.food_name ∈ seen
    · rw [dedupByName, if_pos hx] at hr
      exact ih seen r hr
    · rw [dedupByName, if_neg hx] at hr
      rcases List.mem_cons.mp hr with heq | hr
      · subst heq
        exact hx
      · intro hmem
        exact ih (x.food_name :: seen) r hr (List.mem_cons_of_mem _ hmem)

theorem dedupByName_names_nodup (l : List FoodRow) :
    ∀ seen : List Str, ((dedupByName seen l).map (·.food_name)).Nodup := by
  induction l with
  | nil =>
    intro seen
    simp [dedupByName]
  | cons x xs ih =>
    intro seen
    by_cases hx : x.food_name ∈ seen
    · rw [dedupByName, if_pos hx]
      exact ih seen
    · rw [dedupByName, if_neg hx]
      simp only [List.map_cons, List.nodup_cons]
      refine ⟨?_, ih (x.food_name :: seen)⟩
      intro hmem
      obtain ⟨r, hr, hname⟩ := List.mem_map.mp hmem
      apply dedupByName_not_seen xs _ r hr
      rw [hname]
      exact List.mem_cons_self _ _

theorem dedupByName_first_occurrence (l : List FoodRow) :
    ∀ seen : List Str, ∀ r ∈ dedupByName seen l,
      l.find? (fun x => decide (x.food_name = r.food_name)) = some r := by
  induction l with
  | nil =>
    intro seen r hr
    simp [dedupByName] at hr
  | cons x xs ih =>
    intro seen r hr
    by_cases hx : x.food_name ∈ seen
    · rw [dedupByName, if_pos hx] at hr
      have hne : x.food_name ≠ r.food_name := by
        intro h
        apply dedupByName_not_seen xs seen r hr
        rw [← h]
        exact hx
      rw [List.find?_cons_of_neg _ (by simpa using hne)]
      exact ih seen r hr
    · rw [dedupByName, if_neg hx] at hr
      rcases List.mem_cons.mp hr with heq | hr
      · subst heq
        exact List.find?_cons_of_pos _ (by simp)
      · have hne : x.food_name ≠ r.food_name := by
          intro h
          apply dedupByName_not_seen xs (x.food_name :: seen) r hr
          rw [← h]
          exact List.mem_cons_self _ _
        rw [List.find?_cons_of_neg _ (by simpa using hne)]
        exact ih (x.food_name :: seen) r hr

theorem dedupByName_complete (l : List FoodRow) :
    ∀ seen : List Str, ∀ x ∈ l,
      x.food_name ∈ seen ∨ ∃ r ∈ dedupByName seen l, r.food_name = x.food_name := by
  induction l with
  | nil =>
    intro seen x hx
    simp at hx
  | cons y ys ih =>
    intro seen x hx
    by_cases hy : y.food_name ∈ seen
    · rw [dedupByName, if_pos hy]
      rcases List.mem_cons.mp hx with heq | hx
      · subst heq
        exact Or.inl hy
      · exact ih seen x hx
    · rw [dedupByName, if_neg hy]
      rcases List.mem_cons.mp hx with heq | hx
      · subst heq
        exact Or.inr ⟨x, List.mem_cons_self _ _, rfl⟩
      · rcases ih (y.food_name :: seen) x hx with hmem | ⟨r, hr, hname⟩
        · rcases List.mem_cons.mp hmem with h | h
          · exact Or.inr ⟨y, List.mem_cons_self _ _, h.symm⟩
          · exact Or.inl h
        · exact Or.inr ⟨r, List.mem_cons_of_mem _ hr, hname⟩

theorem dedupByName_sublist (l : List FoodRow) :
    ∀ seen : List Str, (dedupByName seen l).Sublist l := by
  induction l with
  | nil =>
    intro seen
    simp [dedupByName]
  | cons x xs ih =>
    intro seen
    by_cases hx : x.food_name ∈ seen
    · rw [dedupByName, if_pos hx]
      exact (ih seen).cons x
    · rw [dedupByName, if_neg hx]
      exact (ih (x.food_name :: seen)).cons₂ x

/-! ### Claim theorems on Candidate Lookup -/

/-- C1: Candidate Lookup queries at most 5 food-metadata rows per keyword;
the merged output is deduplicated by food name; every returned candidate
is the first row with its name in the keyword-ordered concatenation of
the per-keyword results (so a name matched by an earlier keyword wins);
and every matched name is represented in the output. -/
theorem claim1_candidate_lookup_dedup (db : List FoodRow) (ks : List Str) :
    (∀ w : Str, (lookupKeyword db w).length ≤ 5) ∧
    ((candidateLookup db ks).map (·.food_name)).Nodup ∧
    (∀ r ∈ candidateLookup db ks,
      (ks.flatMap (lookupKeyword db)).find?
        (fun x => decide (x.food_name = r.food_name)) = some r) ∧
    (∀ x ∈ ks.flatMap (lookupKeyword db),
      ∃ r ∈ candidateLookup db ks, r.food_name = x.food_name) := by
  refine ⟨fun w => lookupKeyword_length_le db w,
    dedupByName_names_nodup _ [],
    fun r hr => dedupByName_first_occurrence _ [] r hr,
    fun x hx => ?_⟩
  rcases dedupByName_complete _ [] x hx with h | h
  · simp at h
  · exact h

/-- C3: before each per-keyword lookup every non-alphanumeric character is
stripped from the keyword; the sanitized keyword contains no `LIKE`
wildcard, so the bound pattern `%...%` is matched literally and the rows
fetched are exactly the rows of the store whose food name contains the
sanitized keyword as a substring, capped at 5. -/
theorem claim3_sanitized_parameterized_lookup (db : List FoodRow) (w : Str) :
    (∀ c ∈ cleanWord w, pyIsAlnum c = true) ∧
    (∀ c ∈ cleanWord w, c ≠ '%' ∧ c ≠ '_') ∧
    lookupKeyword db w =
      (db.filter (fun r => decide (cleanWord w <:+: r.food_name))).take 5 :=
  ⟨cleanWord_alnum w, cleanWord_wildcard_free w, lookupKeyword_eq_filter_take db w⟩

/-- C9: with zero keywords, or when no keyword matches any row, Candidate
Lookup returns the empty sequence, the rendering branch shows the
no-results message, and the log is left untouched (no `DietLogEntry` is
created). -/
theorem claim9_no_match_is_normal (db : List FoodRow) (ks : List Str)
    (log : List DietLogEntry)
    (h : ks = [] ∨ ∀ w ∈ ks, lookupKeyword db w = []) :
    candidateLookup db ks = [] ∧
    renderStep log (candidateLookup db ks) = (Outcome.noResultsMessage, log) := by
  have hflat : ks.flatMap (lookupKeyword db) = [] := by
    rcases h with rfl | h
    · rfl
    · simp only [List.flatMap_eq_nil_iff]
      exact h
  have hempty : candidateLookup db ks = [] := by
    rw [candidateLookup, hflat]
    rfl
  rw [hempty]
  exact ⟨rfl, rfl⟩

/-- Witness for C9 at a concrete store and a keyword with no match. -/
theorem claim9_no_match_is_normal_witness :
    (([['피', '자']] : List Str) = [] ∨
      ∀ w ∈ ([['피', '자']] : List Str),
        lookupKeyword [⟨['김', '치'], 30, 2, 1, 5⟩] w = []) ∧
    (candidateLookup [⟨['김', '치'], 30, 2, 1, 5⟩] [['피', '자']] = [] ∧
      renderStep [] (candidateLookup [⟨['김', '치'], 30, 2, 1, 5⟩] [['피', '자']]) =
        (Outcome.noResultsMessage, [])) :=
  ⟨Or.inr (by decide),
    claim9_no_match_is_normal [⟨['김', '치'], 30, 2, 1, 5⟩] [['피', '자']] []
      (Or.inr (by decide))⟩

/-- C10: a keyword with no alphanumeric character sanitizes to the empty
string, so the lookup pattern is `%%` and the per-keyword query returns
the first 5 rows of the whole food-metadata store, whatever their names. -/
theorem claim10_empty_sanitized_matches_all (db : List FoodRow) (w : Str)
    (h : ∀ c ∈ w, pyIsAlnum c = false) :
    cleanWord w = [] ∧ lookupKeyword db w = db.take 5 := by
  have hclean : cleanWord w = [] := by
    simp only [cleanWord, List.filter_eq_nil_iff]
    intro c hc
    simp [h c hc]
  refine ⟨hclean, ?_⟩
  rw [lookupKeyword_eq_filter_take, hclean]
  have : ∀ r ∈ db, decide (([] : Str) <:+: r.food_name) = (fun _ : FoodRow => true) r :=
    fun r _ => by simp [List.nil_infix]
  rw [List.filter_congr this, List.filter_true]

/-- Witness for C10: the keyword `"!!!"` against a two-row store returns
both rows although neither name contains `'!'`. -/
theorem claim10_empty_sanitized_matches_all_witness :
    (∀ c ∈ (['!', '!', '!'] : Str), pyIsAlnum c = false) ∧
    (cleanWord ['!', '!', '!'] = [] ∧
      lookupKeyword [⟨['김', '치'], 30, 2, 1, 5⟩, ⟨['밥'], 300, 6, 1, 65⟩]
          ['!', '!', '!'] =
        ([⟨['김', '치'], 30, 2, 1, 5⟩, ⟨['밥'], 300, 6, 1, 65⟩] : List FoodRow).take 5) :=
  ⟨by decide,
    claim10_empty_sanitized_matches_all
      [⟨['김', '치'], 30, 2, 1, 5⟩, ⟨['밥'], 300, 6, 1, 65⟩] ['!', '!', '!'] (by decide)⟩

/-! ### Rounding to one decimal place -/

theorem roundHalfEven_close (q : ℚ) : |(roundHalfEven q : ℚ) - q| ≤ 1 / 2 := by
  have hfloor : q - (⌊q⌋ : ℚ) = Int.fract q := (Int.self_sub_floor q).symm ▸ rfl
  have h0 : 0 ≤ Int.fract q := Int.fract_nonneg q
  have h1 : Int.fract q < 1 := Int.fract_lt_one q
  unfold roundHalfEven
  split_ifs with hlt hgt _
  · rw [abs_sub_comm, abs_of_nonneg (by linarith [Int.fract_nonneg q] : (0 : ℚ) ≤ q - ⌊q⌋)]
    have : q - (⌊q⌋ : ℚ) = Int.fract q := by rw [Int.self_sub_floor]
    linarith
  · have : ((⌊q⌋ + 1 : ℤ) : ℚ) - q = 1 - Int.fract q := by
      push_cast
      rw [Int.fract]
      ring
    rw [this, abs_of_nonneg (by linarith)]
    linarith
  · have heq : Int.fract q = 1 / 2 := le_antisymm (not_lt.mp hgt) (not_lt.mp hlt)
    rw [abs_sub_comm, abs_of_nonneg (by linarith [Int.fract_nonneg q] : (0 : ℚ) ≤ q - ⌊q⌋)]
    have : q - (⌊q⌋ : ℚ) = Int.fract q := by rw [Int.self_sub_floor]
    linarith
  · have heq : Int.fract q = 1 / 2 := le_antisymm (not_lt.mp hgt) (not_lt.mp hlt)
    have : ((⌊q⌋ + 1 : ℤ) : ℚ) - q = 1 - Int.fract q := by
      push_cast
      rw [Int.fract]
      ring
    rw [this, abs_of_nonneg (by linarith)]
    linarith

theorem pyRound1_close (q : ℚ) : |pyRound1 q - q| ≤ 1 / 20 := by
  have h := roundHalfEven_close (q * 10)
  have heq : pyRound1 q - q = ((roundHalfEven (q * 10) : ℚ) - q * 10) / 10 := by
    unfold pyRound1
    ring
  rw [heq, abs_div]
  rw [show |(10 : ℚ)| = 10 from by norm_num]
  linarith

theorem pyRound1_one_decimal (q : ℚ) : ∃ n : ℤ, pyRound1 q = (n : ℚ) / 10 :=
  ⟨roundHalfEven (q * 10), rfl⟩

/-- C4: Selection & Commit stores every numeric field rounded to exactly
one decimal place: the inserted row's fields are `pyRound1` of the
reference row's fields, `pyRound1` always yields an integer number of
tenths within `1/20` of the input, and the spec's example
`452.666 ↦ 452.7` holds. -/
theorem claim4_commit_rounds_one_decimal :
    (∀ q : ℚ, (∃ n : ℤ, pyRound1 q = (n : ℚ) / 10) ∧ |pyRound1 q - q| ≤ 1 / 20) ∧
    (∀ (log : List DietLogEntry) (uid : Str) (today : ℤ) (r : FoodRow),
      insertLog log uid today r =
        log ++ [{ user_id := uid, food_name := r.food_name,
                  calories := pyRound1 r.calories, protein := pyRound1 r.protein,
                  fat := pyRound1 r.fat, carbs := pyRound1 r.carbs,
                  created_at := today }]) ∧
    pyRound1 (452666 / 1000) = 4527 / 10 := by
  refine ⟨fun q => ⟨pyRound1_one_decimal q, pyRound1_close q⟩,
    fun log uid today r => rfl, ?_⟩
  norm_num [pyRound1, roundHalfEven, Int.fract]

/-! ### User scoping of the summary queries -/

theorem userRows_insert_other (log : List DietLogEntry) (uid uidB : Str)
    (d : ℤ) (r : FoodRow) (h : uidB ≠ uid) :
    userRows (insertLog log uidB d r) uid = userRows log uid := by
  simp [userRows, insertLog, List.filter_append, h]

theorem todayRows_insert_other (log : List DietLogEntry) (uid uidB : Str)
    (d today : ℤ) (r : FoodRow) (h : uidB ≠ uid) :
    todayRows (insertLog log uidB d r) uid today = todayRows log uid today := by
  simp [todayRows, insertLog, List.filter_append, h]

theorem chartQuery_of_userRows_eq (l₁ l₂ : List DietLogEntry) (uid : Str)
    (h : userRows l₁ uid = userRows l₂ uid) :
    chartQuery l₁ uid = chartQuery l₂ uid := by
  unfold chartQuery distinctDates daySum sumCalories
  rw [h]

/-- C5: the daily summary, the 7-day trend and the macro-ratio queries of
user A are unchanged by a row inserted for a different user B: every
query filters on the requesting user's id, so B's rows never appear. -/
theorem claim5_user_scoping (log : List DietLogEntry) (uidA uidB : Str)
    (today d : ℤ) (r : FoodRow) (h : uidB ≠ uidA) :
    dailyCal (insertLog log uidB d r) uidA today = dailyCal log uidA today ∧
    dailyProt (insertLog log uidB d r) uidA today = dailyProt log uidA today ∧
    ratioQuery (insertLog log uidB d r) uidA today = ratioQuery log uidA today ∧
    chartQuery (insertLog log uidB d r) uidA = chartQuery log uidA ∧
    chartDisplay (insertLog log uidB d r) uidA = chartDisplay log uidA := by
  have ht := todayRows_insert_other log uidA uidB d today r h
  have hu := userRows_insert_other log uidA uidB d r h
  have hq := chartQuery_of_userRows_eq (insertLog log uidB d r) log uidA hu
  refine ⟨?_, ?_, ?_, hq, ?_⟩
  · unfold dailyCal sumCalories
    rw [ht]
  · unfold dailyProt
    rw [ht]
  · unfold ratioQuery
    rw [ht]
  · unfold chartDisplay
    rw [hq]

/-- Witness for C5 at a concrete log, pair of users, and inserted row. -/
theorem claim5_user_scoping_witness :
    (['b'] : Str) ≠ ['a'] ∧
    (dailyCal (insertLog [] ['b'] 0 ⟨['x'], 1, 2, 3, 4⟩) ['a'] 0 =
        dailyCal [] ['a'] 0 ∧
      dailyProt (insertLog [] ['b'] 0 ⟨['x'], 1, 2, 3, 4⟩) ['a'] 0 =
        dailyProt [] ['a'] 0 ∧
      ratioQuery (insertLog [] ['b'] 0 ⟨['x'], 1, 2, 3, 4⟩) ['a'] 0 =
        ratioQuery [] ['a'] 0 ∧
      chartQuery (insertLog [] ['b'] 0 ⟨['x'], 1, 2, 3, 4⟩) ['a'] =
        chartQuery [] ['a'] ∧
      chartDisplay (insertLog [] ['b'] 0 ⟨['x'], 1, 2, 3, 4⟩) ['a'] =
        chartDisplay [] ['a']) :=
  ⟨by decide, claim5_user_scoping [] ['a'] ['b'] 0 0 ⟨['x'], 1, 2, 3, 4⟩ (by decide)⟩

/-! ### Commit is a plain insert -/

/-- C7: two commits for the same user and food on the same day append two
distinct rows (the log grows by exactly 2), and when the user had no
other rows that day the daily summary equals the sum of the two rows'
calories. -/
theorem claim7_double_commit (log : List DietLogEntry) (uid : Str) (today : ℤ)
    (r1 r2 : FoodRow)
    (h : ∀ e ∈ log, ¬(e.user_id = uid ∧ e.created_at = today)) :
    (insertLog (insertLog log uid today r1) uid today r2).length = log.length + 2 ∧
    dailyCal (insertLog (insertLog log uid today r1) uid today r2) uid today =
      pyRound1 r1.calories + pyRound1 r2.calories := by
  constructor
  · simp [insertLog]
  · unfold dailyCal sumCalories todayRows
    have hnil : List.filter (fun e => decide (e.user_id = uid ∧ e.created_at = today)) log
        = [] := by
      simp only [List.filter_eq_nil_iff, decide_eq_true_eq]
      exact h
    simp only [insertLog, List.filter_append, hnil]
    simp

/-- Witness for C7: an empty starting log, one user, one food committed
twice on day 0. -/
theorem claim7_double_commit_witness :
    (∀ e ∈ ([] : List DietLogEntry), ¬(e.user_id = ['u'] ∧ e.created_at = 0)) ∧
    ((insertLog (insertLog [] ['u'] 0 ⟨['밥'], 300, 6, 1, 65⟩) ['u'] 0
        ⟨['밥'], 300, 6, 1, 65⟩).length = ([] : List DietLogEntry).length + 2 ∧
      dailyCal (insertLog (insertLog [] ['u'] 0 ⟨['밥'], 300, 6, 1, 65⟩) ['u'] 0
          ⟨['밥'], 300, 6, 1, 65⟩) ['u'] 0 =
        pyRound1 300 + pyRound1 300) :=
  ⟨by simp, claim7_double_commit [] ['u'] 0 ⟨['밥'], 300, 6, 1, 65⟩
    ⟨['밥'], 300, 6, 1, 65⟩ (by simp)⟩

/-- C8 (divergence evidence): the claim demands that a selection value not
corresponding to a position in the held candidate list must not crash the
commit.  The code's `food_options.index(selected_option)` raises an
uncaught `ValueError` for such a value: with the single candidate
`돈까스 (520kcal)` and a selected label `샐러드 (100kcal)` that is not in
the option list, the click handler aborts with the exception (before any
insert, so no `DietLogEntry` is created, but the render cycle crashes
rather than being handled as an invalid state). -/
theorem claim8_invalid_selection_crashes :
    commitClick [] ['u'] 0 [⟨['돈', '까', '스'], 520, 30, 25, 40⟩]
      (['샐', '러', '드'], 100) = Except.error PyError.valueError := by
  rfl

/-! ### The 7-day trend query -/

theorem chartQuery_map_fst (log : List DietLogEntry) (uid : Str) :
    (chartQuery log uid).map Prod.fst =
      ((distinctDates log uid).insertionSort (· ≥ ·)).take 7 := by
  unfold chartQuery
  rw [List.map_map]
  exact List.map_id _

/-- C6: the displayed 7-day trend has one row per distinct date of the
user's log capped at 7 (`min` of the two counts), its dates are pairwise
distinct, it is ordered oldest to newest, each row's value is that date's
calorie sum, and any distinct date left out is older than every displayed
date (the 7 most recent dates are kept). -/
theorem claim6_seven_day_trend (log : List DietLogEntry) (uid : Str) :
    (chartDisplay log uid).length = min (distinctDates log uid).length 7 ∧
    ((chartDisplay log uid).map Prod.fst).Nodup ∧
    (chartDisplay log uid).Pairwise (fun p q => p.1 ≤ q.1) ∧
    (∀ p ∈ chartDisplay log uid,
      p.1 ∈ distinctDates log uid ∧ p.2 = daySum log uid p.1) ∧
    (∀ d ∈ distinctDates log uid, d ∉ (chartDisplay log uid).map Prod.fst →
      ∀ p ∈ chartDisplay log uid, d < p.1) := by
  have hperm_srt := List.perm_insertionSort (· ≥ ·) (distinctDates log uid)
  have hsort_srt := List.sorted_insertionSort (· ≥ ·) (distinctDates log uid)
  have hnd_dd : (distinctDates log uid).Nodup := List.nodup_dedup _
  have hnd_srt : ((distinctDates log uid).insertionSort (· ≥ ·)).Nodup :=
    hperm_srt.nodup_iff.mpr hnd_dd
  have hperm_disp := List.perm_insertionSort (fun p q : ℤ × ℚ => p.1 ≤ q.1)
    (chartQuery log uid)
  have hfst : (chartQuery log uid).map Prod.fst =
      ((distinctDates log uid).insertionSort (· ≥ ·)).take 7 :=
    chartQuery_map_fst log uid
  have hfst_perm : ((chartDisplay log uid).map Prod.fst).Perm
      (((distinctDates log uid).insertionSort (· ≥ ·)).take 7) := by
    rw [← hfst]
    exact hperm_disp.map Prod.fst
  refine ⟨?_, ?_, ?_, ?_, ?_⟩
  · calc (chartDisplay log uid).length
        = (chartQuery log uid).length := hperm_disp.length_eq
      _ = ((chartQuery log uid).map Prod.fst).length := (List.length_map _ _).symm
      _ = (((distinctDates log uid).insertionSort (· ≥ ·)).take 7).length := by
            rw [hfst]
      _ = min (distinctDates log uid).length 7 := by
            rw [List.length_take, hperm_srt.length_eq]
            omega
  · refine hfst_perm.nodup_iff.mpr ?_
    exact (List.take_sublist 7 _).nodup hnd_srt
  · exact List.sorted_insertionSort (fun p q : ℤ × ℚ => p.1 ≤ q.1) (chartQuery log uid)
  · intro p hp
    have hpq : p ∈ chartQuery log uid := hperm_disp.mem_iff.mp hp
    unfold chartQuery at hpq
    obtain ⟨d, hd, hfd⟩ := List.mem_map.mp hpq
    have hd_srt := List.mem_of_mem_take hd
    have hd_dd : d ∈ distinctDates log uid := hperm_srt.mem_iff.mp hd_srt
    constructor
    · rw [← hfd]
      exact hd_dd
    · rw [← hfd]
  · intro d hd hnot p hp
    have hd_srt : d ∈ (distinctDates log uid).insertionSort (· ≥ ·) :=
      hperm_srt.mem_iff.mpr hd
    have hd_take : d ∉ ((distinctDates log uid).insertionSort (· ≥ ·)).take 7 :=
      fun hmem => hnot (hfst_perm.mem_iff.mpr hmem)
    have hd_drop : d ∈ ((distinctDates log uid).insertionSort (· ≥ ·)).drop 7 := by
      rcases List.mem_append.mp
        ((List.take_append_drop 7 ((distinctDates log uid).insertionSort (· ≥ ·))).symm
          ▸ hd_srt) with hmem | hmem
      · exact absurd hmem hd_take
      · exact hmem
    have hp_take : p.1 ∈ ((distinctDates log uid).insertionSort (· ≥ ·)).take 7 := by
      rw [← hfst]
      exact List.mem_map_of_mem Prod.fst (hperm_disp.mem_iff.mp hp)
    have hpw : List.Pairwise (· ≥ ·)
        (((distinctDates log uid).insertionSort (· ≥ ·)).take 7 ++
          ((distinctDates log uid).insertionSort (· ≥ ·)).drop 7) := by
      rw [List.take_append_drop]
      exact hsort_srt
    have hge : p.1 ≥ d := (List.pairwise_append.mp hpw).2.2 p.1 hp_take d hd_drop
    have hnd_app := hnd_srt
    rw [← List.take_append_drop 7 ((distinctDates log uid).insertionSort (· ≥ ·))]
      at hnd_app
    have hdisj := (List.nodup_append.mp hnd_app).2.2
    have hne : d ≠ p.1 := by
      intro heq
      exact hdisj hp_take (heq ▸ hd_drop)
    exact lt_of_le_of_ne hge hne

/-! ### Keyword Parser: splitting and stripping -/

theorem splitComma_ne_nil (u : Str) : splitComma u ≠ [] := by
  cases u with
  | nil => simp [splitComma]
  | cons c cs =>
    by_cases h : c = ',' <;> simp [splitComma, h]

theorem splitComma_comma_cons (cs : Str) :
    splitComma (',' :: cs) = [] :: splitComma cs := by
  simp [splitComma]

theorem splitComma_cons_of_ne (c : Char) (cs : Str) (h : c ≠ ',') :
    splitComma (c :: cs) = (c :: (splitComma cs).headI) :: (splitComma cs).tail := by
  simp [splitComma, h]

theorem splitComma_append_comma (u : Str) :
    splitComma (u ++ [',']) = splitComma u ++ [[]] := by
  induction u with
  | nil => simp [splitComma]
  | cons c cs ih =>
    by_cases h : c = ','
    · subst h
      rw [List.cons_append, splitComma_comma_cons, splitComma_comma_cons, ih]
      rfl
    · obtain ⟨p, ps, hp⟩ := List.exists_cons_of_ne_nil (splitComma_ne_nil cs)
      rw [List.cons_append, splitComma_cons_of_ne c _ h, splitComma_cons_of_ne c _ h,
        ih, hp]
      simp

theorem splitComma_append_ne (c : Char) (h : c ≠ ',') (u : Str) :
    splitComma (u ++ [c]) = mapLast (· ++ [c]) (splitComma u) := by
  induction u with
  | nil => simp [splitComma, mapLast, h]
  | cons a u' ih =>
    obtain ⟨p, ps, hp⟩ := List.exists_cons_of_ne_nil (splitComma_ne_nil u')
    by_cases ha : a = ','
    · subst ha
      rw [List.cons_append, splitComma_comma_cons, splitComma_comma_cons, ih, hp]
      rfl
    · rw [List.cons_append, splitComma_cons_of_ne a _ ha, splitComma_cons_of_ne a _ ha,
        ih, hp]
      cases ps with
      | nil => simp [mapLast]
      | cons q qs => simp [mapLast]

theorem map_pyStrip_mapLast (g : Str → Str) (h : ∀ x, pyStrip (g x) = pyStrip x) :
    ∀ l : List Str, (mapLast g l).map pyStrip = l.map pyStrip := by
  intro l
  induction l with
  | nil => rfl
  | cons a t ih =>
    cases t with
    | nil => simp [mapLast, h]
    | cons b l' =>
      rw [mapLast, List.map_cons, List.map_cons, ih]

theorem lstrip_cons_of_space (c : Char) (s : Str) (h : isPySpace c = true) :
    lstrip (c :: s) = lstrip s := by
  simp [lstrip, List.dropWhile_cons, h]

theorem lstrip_cons_of_not_space (c : Char) (s : Str) (h : isPySpace c = false) :
    lstrip (c :: s) = c :: s := by
  simp [lstrip, List.dropWhile_cons, h]

theorem rstrip_append_of_space (c : Char) (s : Str) (h : isPySpace c = true) :
    rstrip (s ++ [c]) = rstrip s := by
  simp [rstrip, List.reverse_append, List.dropWhile_cons, h]

theorem rstrip_append_of_not_space (c : Char) (s : Str) (h : isPySpace c = false) :
    rstrip (s ++ [c]) = s ++ [c] := by
  simp [rstrip, List.reverse_append, List.dropWhile_cons, h]

theorem pyStrip_nil : pyStrip [] = [] := rfl

theorem pyStrip_cons_of_space (c : Char) (s : Str) (h : isPySpace c = true) :
    pyStrip (c :: s) = pyStrip s := by
  simp [pyStrip, lstrip_cons_of_space c s h]

theorem pyStrip_append_of_space (c : Char) (s : Str) (h : isPySpace c = true) :
    pyStrip (s ++ [c]) = pyStrip s := by
  unfold pyStrip lstrip
  rw [List.dropWhile_append]
  by_cases he : (s.dropWhile isPySpace).isEmpty
  · rw [if_pos he]
    have h1 : List.dropWhile isPySpace [c] = [] := by
      simp [List.dropWhile_cons, h]
    have h2 : s.dropWhile isPySpace = [] := by
      simpa using he
    rw [h1, h2]
  · rw [if_neg he]
    exact rstrip_append_of_space c _ h

theorem dropWhile_space_idem (s : Str) :
    (s.dropWhile isPySpace).dropWhile isPySpace = s.dropWhile isPySpace := by
  induction s with
  | nil => rfl
  | cons c cs ih =>
    by_cases h : isPySpace c <;> simp [List.dropWhile_cons, h, ih]

theorem lstrip_idem (s : Str) : lstrip (lstrip s) = lstrip s :=
  dropWhile_space_idem s

theorem rstrip_idem (s : Str) : rstrip (rstrip s) = rstrip s := by
  unfold rstrip
  rw [List.reverse_reverse, dropWhile_space_idem]

theorem dropWhile_space_isSuffix (s : Str) : s.dropWhile isPySpace <:+ s := by
  induction s with
  | nil => exact List.suffix_refl _
  | cons c cs ih =>
    by_cases h : isPySpace c
    · rw [List.dropWhile_cons, if_pos h]
      exact ih.trans (List.suffix_cons c cs)
    · rw [List.dropWhile_cons, if_neg h]

theorem lstrip_rstrip_of_fixed (y : Str) (hy : lstrip y = y) :
    lstrip (rstrip y) = rstrip y := by
  have hpre : ∃ t, rstrip y ++ t = y := by
    obtain ⟨u, hu⟩ := dropWhile_space_isSuffix y.reverse
    refine ⟨u.reverse, ?_⟩
    have := congrArg List.reverse hu
    simpa [rstrip] using this
  obtain ⟨t, ht⟩ := hpre
  cases hr : rstrip y with
  | nil => rfl
  | cons a z =>
    have hy' : y = a :: (z ++ t) := by
      rw [← ht, hr]
      simp
    have ha : isPySpace a = false := by
      by_contra hcon
      have ha' : isPySpace a = true := by
        simpa using hcon
      have h1 : lstrip y = lstrip (z ++ t) := by
        rw [hy', lstrip_cons_of_space a _ ha']
      have h2 : (lstrip (z ++ t)).length ≤ (z ++ t).length :=
        (dropWhile_space_isSuffix (z ++ t)).sublist.length_le
      rw [hy] at h1
      have h3 : y.length ≤ (z ++ t).length := h1 ▸ h2
      rw [hy'] at h3
      simp at h3
    exact lstrip_cons_of_not_space a z ha

theorem pyStrip_idem (s : Str) : pyStrip (pyStrip s) = pyStrip s := by
  show rstrip (lstrip (rstrip (lstrip s))) = rstrip (lstrip s)
  rw [lstrip_rstrip_of_fixed (lstrip s) (lstrip_idem s), rstrip_idem]

/-! ### Keyword Parser: invisibility of the initial whole-string strip -/

theorem pieces_comma_cons (v : Str) : pieces (',' :: v) = pieces v := by
  unfold pieces
  rw [splitComma_comma_cons]
  simp [pyStrip_nil]

theorem pieces_cons_of_space (c : Char) (v : Str) (hs : isPySpace c = true)
    (hc : c ≠ ',') : pieces (c :: v) = pieces v := by
  obtain ⟨p, ps, hp⟩ := List.exists_cons_of_ne_nil (splitComma_ne_nil v)
  unfold pieces
  rw [splitComma_cons_of_ne c v hc, hp]
  simp only [List.headI, List.tail_cons, List.map_cons,
    pyStrip_cons_of_space c p hs]

theorem pieces_append_comma (v : Str) : pieces (v ++ [',']) = pieces v := by
  unfold pieces
  rw [splitComma_append_comma]
  simp [pyStrip_nil]

theorem pieces_append_of_space (c : Char) (v : Str) (hs : isPySpace c = true)
    (hc : c ≠ ',') : pieces (v ++ [c]) = pieces v := by
  unfold pieces
  rw [splitComma_append_ne c hc,
    map_pyStrip_mapLast (· ++ [c]) (fun x => pyStrip_append_of_space c x hs)]

theorem replNl_cons (c : Char) (s : Str) :
    replNl (c :: s) = (if c = '\n' then ',' else c) :: replNl s := by
  simp [replNl]

theorem replNl_append_single (s : Str) (c : Char) :
    replNl (s ++ [c]) = replNl s ++ [if c = '\n' then ',' else c] := by
  simp [replNl]

theorem comma_not_space : isPySpace ',' = false := by decide

theorem pieces_replNl_lstrip (s : Str) :
    pieces (replNl (lstrip s)) = pieces (replNl s) := by
  induction s with
  | nil => rfl
  | cons c cs ih =>
    by_cases hw : isPySpace c
    · rw [lstrip_cons_of_space c cs hw, ih, replNl_cons]
      by_cases hn : c = '\n'
      · rw [if_pos hn, pieces_comma_cons]
      · rw [if_neg hn]
        have hc : c ≠ ',' := by
          intro h
          rw [h, comma_not_space] at hw
          exact absurd hw (by simp)
        rw [pieces_cons_of_space c _ hw hc]
    · rw [lstrip_cons_of_not_space c cs (by simpa using hw)]

theorem pieces_replNl_rstrip (s : Str) :
    pieces (replNl (rstrip s)) = pieces (replNl s) := by
  induction s using List.reverseRecOn with
  | nil => rfl
  | append_singleton u c ih =>
    by_cases hw : isPySpace c
    · rw [rstrip_append_of_space c u hw, ih, replNl_append_single]
      by_cases hn : c = '\n'
      · rw [if_pos hn, pieces_append_comma]
      · rw [if_neg hn]
        have hc : c ≠ ',' := by
          intro h
          rw [h, comma_not_space] at hw
          exact absurd hw (by simp)
        rw [pieces_append_of_space c _ hw hc]
    · rw [rstrip_append_of_not_space c u (by simpa using hw)]

theorem codeKeywords_eq_specKeywords (s : Str) : codeKeywords s = specKeywords s := by
  unfold codeKeywords specKeywords pyStrip
  rw [pieces_replNl_rstrip (lstrip s), pieces_replNl_lstrip s]

theorem mem_pieces_nonempty_trimmed (u k : Str) (h : k ∈ pieces u) :
    k ≠ [] ∧ pyStrip k = k := by
  unfold pieces at h
  obtain ⟨hmem, hne⟩ := List.mem_filter.mp h
  constructor
  · simpa using hne
  · obtain ⟨p, _, hp⟩ := List.mem_map.mp hmem
    rw [← hp, pyStrip_idem]

/-- C2: the Keyword Parser returns exactly the non-empty trimmed pieces of
the comma-split of the line-break-normalized input, in order: the coded
parser (which strips the whole string first) agrees with that description
on every input, every returned keyword is non-empty and trimmed, and the
spec's example `" 돈까스 , ,고기튀김" ↦ ["돈까스", "고기튀김"]` holds. -/
theorem claim2_keyword_parsing (s : Str) :
    codeKeywords s = specKeywords s ∧
    (∀ k ∈ codeKeywords s, k ≠ [] ∧ pyStrip k = k) ∧
    codeKeywords [' ', '돈', '까', '스', ' ', ',', ' ', ',', '고', '기', '튀', '김'] =
      [['돈', '까', '스'], ['고', '기', '튀', '김']] := by
  refine ⟨codeKeywords_eq_specKeywords s, fun k hk => ?_, by decide⟩
  exact mem_pieces_nonempty_trimmed _ k hk

end DietApp
